import Mathlib

/-!
Verification of the monigo instrumentation-and-export core.

This file gives a shallow embedding of the core components of the monigo
repository — the metric registry (`internal/registry/registry.go`), the
adaptive function tracer (`core` package, `executeFunctionWithProfiling`
and the `TraceFunction*` family), the exporter fan-out
(`internal/exporter/exporter.go`) and the export pipeline
(`internal/pipeline/pipeline.go`) — and proves or refutes the frozen
specification claims about them.

Modelling conventions:
* Go `map[string]T` values are embedded as association lists with unique
  keys (`Table`); map insertion order is irrelevant to every claim proved
  here, and the one place the code relies on Go's *unspecified* map
  iteration order (cache eviction) is modelled by removing the first
  stored entry, one concrete instance of the arbitrary policy.
* `float64` metric values are embedded as exact rationals (`ℚ`); every
  arithmetic fact used by a claim involves small integers, on which IEEE
  double-precision arithmetic is exact.
* `time.Time` / `time.Duration` readings are opaque inputs, embedded as
  naturals supplied by the environment.
* The `uint64` per-function invocation counter wraps at `2 ^ 64`, and the
  embedding keeps that wrap explicit.
-/

namespace Monigo

/-- A Go `map[string]α`, embedded as an association list.  All operations
below keep keys unique, mirroring map semantics. -/
abbrev Table (α : Type) := List (String × α)

/-- Go map read `v, ok := m[k]`. -/
def lookupTable {α : Type} : Table α → String → Option α
  | [], _ => none
  | (k, v) :: rest, n => if k = n then some v else lookupTable rest n

/-- Go map write `m[k] = v`: replaces the entry in place when the key is
present, otherwise adds a new entry. -/
def setTable {α : Type} : Table α → String → α → Table α
  | [], n, m => [(n, m)]
  | (k, v) :: rest, n, m =>
    if k = n then (n, m) :: rest else (k, v) :: setTable rest n m

/-- The keys currently stored in a table. -/
def keysOf {α : Type} (t : Table α) : List String :=
  t.map Prod.fst

theorem lookupTable_setTable_self {α : Type} (t : Table α) (n : String) (v : α) :
    lookupTable (setTable t n v) n = some v := by
  induction t with
  | nil => simp [setTable, lookupTable]
  | cons hd tl ih =>
    obtain ⟨k, w⟩ := hd
    by_cases h : k = n
    · simp [setTable, lookupTable, h]
    · simp [setTable, lookupTable, h, ih]

theorem lookupTable_setTable_ne {α : Type} (t : Table α) (n k : String) (v : α)
    (h : k ≠ n) : lookupTable (setTable t n v) k = lookupTable t k := by
  induction t with
  | nil => simp [setTable, lookupTable, Ne.symm h]
  | cons hd tl ih =>
    obtain ⟨k0, w⟩ := hd
    by_cases h0 : k0 = n
    · subst h0
      simp [setTable, lookupTable, Ne.symm h]
    · simp [setTable, lookupTable, h0, ih]

/-! ## Metric registry (`internal/registry/registry.go`)

The registry owns `metrics map[string]*MetricValue` behind a lock.  Claims
C7, C9 and C10 concern the stored *contents*, for which this value-level
model is adequate; claim C4 (pointer aliasing of returned snapshots) is
settled further below against a second model that makes Go's reference
semantics explicit. -/

/-- `registry.MetricType`: `Gauge | Counter | Histogram`. -/
inductive MetricType
  | gauge
  | counter
  | histogram
deriving DecidableEq, Repr

/-- `registry.MetricValue`.  `Value float64` is embedded as `ℚ`,
`Timestamp time.Time` as a `Nat` supplied by the caller (the code reads
`time.Now()` at each write). -/
structure MetricValue where
  name : String
  value : ℚ
  labels : Table String
  timestamp : Nat
  type : MetricType
deriving DecidableEq, Repr

/-- The registry's `metrics` map. -/
abbrev Registry := Table MetricValue

/-- `NewRegistry()`: an empty metrics map. -/
def newRegistry : Registry := []

/-- `Registry.SetGauge`: stores a fresh record with `Type: Gauge`,
unconditionally replacing any previous record under the name. -/
def setGauge (r : Registry) (name : String) (value : ℚ)
    (labels : Table String) (now : Nat) : Registry :=
  setTable r name ⟨name, value, labels, now, .gauge⟩

/-- `Registry.IncrementCounter`: when a record exists under `name` *and*
its type is `Counter`, adds `delta` to the stored value and refreshes the
timestamp; in every other case (absent, or present with a different type)
stores a fresh `Counter` record whose value is `delta` and whose labels
are the newly supplied ones. -/
def incrementCounter (r : Registry) (name : String) (delta : ℚ)
    (labels : Table String) (now : Nat) : Registry :=
  match lookupTable r name with
  | some m =>
    if m.type = .counter then
      setTable r name { m with value := m.value + delta, timestamp := now }
    else
      setTable r name ⟨name, delta, labels, now, .counter⟩
  | none => setTable r name ⟨name, delta, labels, now, .counter⟩

/-- `Registry.RecordHistogram`: placeholder write, stores the last value
with `Type: Histogram` (no bucketing). -/
def recordHistogram (r : Registry) (name : String) (value : ℚ)
    (labels : Table String) (now : Nat) : Registry :=
  setTable r name ⟨name, value, labels, now, .histogram⟩

/-- `Registry.Delete`: removes the record stored under `name`, if any. -/
def deleteMetric (r : Registry) (name : String) : Registry :=
  r.filter (fun kv => kv.1 ≠ name)

/-- `Registry.GetAll`: returns the stored records as a list (each entry a
struct copy `cp := *v`; at the level of stored contents this is the list
of current values). -/
def getAll (r : Registry) : List MetricValue :=
  r.map Prod.snd

theorem incrementCounter_absent (r : Registry) (name : String) (delta : ℚ)
    (labels : Table String) (now : Nat) (h : lookupTable r name = none) :
    incrementCounter r name delta labels now =
      setTable r name ⟨name, delta, labels, now, .counter⟩ := by
  simp [incrementCounter, h]

theorem incrementCounter_on_counter (r : Registry) (name : String) (delta : ℚ)
    (labels : Table String) (now : Nat) (m : MetricValue)
    (h : lookupTable r name = some m) (hty : m.type = .counter) :
    incrementCounter r name delta labels now =
      setTable r name { m with value := m.value + delta, timestamp := now } := by
  simp [incrementCounter, h, hty]

theorem incrementCounter_on_other (r : Registry) (name : String) (delta : ℚ)
    (labels : Table String) (now : Nat) (m : MetricValue)
    (h : lookupTable r name = some m) (hty : m.type ≠ .counter) :
    incrementCounter r name delta labels now =
      setTable r name ⟨name, delta, labels, now, .counter⟩ := by
  simp [incrementCounter, h, hty]

/-- C7: for a fresh registry, `IncrementCounter("x", 1, labels)` followed
by `IncrementCounter("x", 5, labels)` leaves `"x"` stored with value `6`
and kind `Counter`; in general `IncrementCounter` creates the metric with
the given delta on first write and adds the delta to the stored value on
every subsequent write to the same counter. -/
theorem incrementCounter_create_or_add :
    (∀ (labels : Table String) (t1 t2 : Nat),
      lookupTable
        (incrementCounter (incrementCounter newRegistry "x" 1 labels t1)
          "x" 5 labels t2) "x" =
        some ⟨"x", 6, labels, t2, .counter⟩) ∧
    (∀ (r : Registry) (name : String) (delta : ℚ) (labels : Table String)
        (now : Nat),
      lookupTable r name = none →
      lookupTable (incrementCounter r name delta labels now) name =
        some ⟨name, delta, labels, now, .counter⟩) ∧
    (∀ (r : Registry) (name : String) (delta : ℚ) (labels : Table String)
        (now : Nat) (m : MetricValue),
      lookupTable r name = some m →
      m.type = .counter →
      lookupTable (incrementCounter r name delta labels now) name =
        some { m with value := m.value + delta, timestamp := now }) := by
  refine ⟨?_, ?_, ?_⟩
  · intro labels t1 t2
    rw [incrementCounter_absent newRegistry "x" 1 labels t1 rfl]
    rw [incrementCounter_on_counter
      (setTable newRegistry "x" ⟨"x", 1, labels, t1, .counter⟩) "x" 5 labels t2
      ⟨"x", 1, labels, t1, .counter⟩ (lookupTable_setTable_self _ _ _) rfl]
    rw [lookupTable_setTable_self]
    norm_num
  · intro r name delta labels now h
    rw [incrementCounter_absent _ _ _ _ _ h, lookupTable_setTable_self]
  · intro r name delta labels now m h hty
    rw [incrementCounter_on_counter _ _ _ _ _ _ h hty, lookupTable_setTable_self]

theorem incrementCounter_create_or_add_witness :
    lookupTable (incrementCounter newRegistry "y" 2 [] 0) "y" =
      some ⟨"y", 2, [], 0, .counter⟩ ∧
    lookupTable
        (incrementCounter (incrementCounter newRegistry "y" 2 [] 0) "y" 3 [] 1)
        "y" =
      some ⟨"y", 5, [], 1, .counter⟩ := by
  have h0 : lookupTable (newRegistry : Registry) "y" = none := rfl
  have h1 := incrementCounter_create_or_add.2.1 newRegistry "y" 2 [] 0 h0
  refine ⟨h1, ?_⟩
  have h2 := incrementCounter_create_or_add.2.2
    (incrementCounter newRegistry "y" 2 [] 0) "y" 3 [] 1
    ⟨"y", 2, [], 0, .counter⟩ h1 rfl
  norm_num at h2
  exact h2

/-- C10: for every registry state in which `name` is stored with kind
`Gauge` or `Histogram` (not `Counter`), `IncrementCounter(name, delta,
labels)` does not add: it replaces the record with a fresh one whose
value is `delta`, whose kind is `Counter`, and whose labels are the newly
supplied labels. -/
theorem incrementCounter_replaces_non_counter
    (r : Registry) (name : String) (delta : ℚ) (labels : Table String)
    (now : Nat) (m : MetricValue)
    (hm : lookupTable r name = some m) (hty : m.type ≠ .counter) :
    lookupTable (incrementCounter r name delta labels now) name =
      some ⟨name, delta, labels, now, .counter⟩ := by
  simp [incrementCounter, hm, hty, lookupTable_setTable_self]

theorem incrementCounter_replaces_non_counter_witness :
    lookupTable
      (incrementCounter (setGauge newRegistry "x" 10 [("a", "1")] 0)
        "x" 3 [("b", "2")] 1) "x" =
      some ⟨"x", 3, [("b", "2")], 1, .counter⟩ := by
  have hm : lookupTable (setGauge newRegistry "x" 10 [("a", "1")] 0) "x" =
      some ⟨"x", 10, [("a", "1")], 0, .gauge⟩ := by
    apply lookupTable_setTable_self
  exact incrementCounter_replaces_non_counter _ "x" 3 [("b", "2")] 1 _ hm
    (by decide)

/-! ## Sampling rate (`core` package)

`samplingRate` is a process-wide `atomic.Int64`, stored by
`SetSamplingRate` and initialised to 100 by `init()`. -/

/-- `init()`: `samplingRate.Store(100)`. -/
def initialSamplingRate : Int := 100

/-- `SetSamplingRate(rate int)`: clamps values below 1 up to 1, then
stores.  The returned value is the one stored in `samplingRate`. -/
def setSamplingRate (rate : Int) : Int :=
  if rate < 1 then 1 else rate

/-- C8: the global sampling rate is always at least 1: `SetSamplingRate(r)`
stores `r` when `r ≥ 1` and stores `1` when `r < 1`, and the initial rate
is at least 1, so the sampling-decision modulus is never zero. -/
theorem samplingRate_clamped :
    (∀ rate : Int, 1 ≤ rate → setSamplingRate rate = rate) ∧
    (∀ rate : Int, rate < 1 → setSamplingRate rate = 1) ∧
    (∀ rate : Int, 1 ≤ setSamplingRate rate) ∧
    initialSamplingRate = 100 ∧ 1 ≤ initialSamplingRate := by
  refine ⟨?_, ?_, ?_, rfl, by norm_num [initialSamplingRate]⟩
  · intro rate h
    simp [setSamplingRate, not_lt.mpr h]
  · intro rate h
    simp [setSamplingRate, h]
  · intro rate
    by_cases h : rate < 1
    · simp [setSamplingRate, h]
    · simp only [setSamplingRate, if_neg h]
      omega

theorem samplingRate_clamped_witness :
    setSamplingRate 5 = 5 ∧ setSamplingRate 0 = 1 ∧
      setSamplingRate (-3) = 1 :=
  ⟨samplingRate_clamped.1 5 (by norm_num),
   samplingRate_clamped.2.1 0 (by norm_num),
   samplingRate_clamped.2.1 (-3) (by norm_num)⟩

/-! ## Exporter fan-out (`internal/exporter/exporter.go`)

`MultiExporter.Export` iterates over the registered backends, invoking
each backend's `Export` with the same `metrics` slice, collecting every
returned error, and returns `errors.Join(errs...)` — which is `nil`
exactly when no backend returned an error.

A backend is modelled by its `Export` behavior on a snapshot: `none`
means success, `some e` the error it returns.  `multiExport` returns the
*call log* (the argument each backend was invoked with, in loop order)
together with the collected error list, so that "every backend was
invoked, with the same snapshot" is an explicit part of the result. -/

def multiExport {Snap Err : Type} (backends : List (Snap → Option Err))
    (snap : Snap) : List Snap × List Err :=
  match backends with
  | [] => ([], [])
  | b :: rest =>
    let tail := multiExport rest snap
    (snap :: tail.1,
      match b snap with
      | some e => e :: tail.2
      | none => tail.2)

/-- `errors.Join(errs...)`: `nil` when there are no errors, otherwise an
error wrapping every collected error. -/
def joinErrors {Err : Type} (errs : List Err) : Option (List Err) :=
  if errs.isEmpty then none else some errs

/-- C2: for every list of registered backends and every snapshot, the
fan-out's `Export` calls every backend's `Export` with that same
snapshot, does not stop at the first backend failure, and returns an
error that aggregates all backend errors (and returns no error exactly
when every backend succeeded). -/
theorem multiExporter_fanout {Snap Err : Type}
    (backends : List (Snap → Option Err)) (snap : Snap) :
    (multiExport backends snap).1 = backends.map (fun _ => snap) ∧
    (multiExport backends snap).2 =
      backends.filterMap (fun b => b snap) ∧
    (joinErrors (multiExport backends snap).2 = none ↔
      ∀ b ∈ backends, b snap = none) := by
  have herrs : ∀ bs : List (Snap → Option Err),
      (multiExport bs snap).2 = bs.filterMap (fun b => b snap) := by
    intro bs
    induction bs with
    | nil => rfl
    | cons b rest ih =>
      cases hb : b snap <;> simp [multiExport, hb, ih]
  have hcalls : ∀ bs : List (Snap → Option Err),
      (multiExport bs snap).1 = bs.map (fun _ => snap) := by
    intro bs
    induction bs with
    | nil => rfl
    | cons b rest ih => simp [multiExport, ih]
  refine ⟨hcalls backends, herrs backends, ?_⟩
  rw [herrs backends]
  constructor
  · intro h
    by_cases he : (backends.filterMap (fun b => b snap)).isEmpty
    · intro b hb
      have hnil : backends.filterMap (fun b => b snap) = [] := by
        simpa [List.isEmpty_iff] using he
      exact List.filterMap_eq_nil_iff.mp hnil b hb
    · simp [joinErrors, he] at h
  · intro h
    have hnil : backends.filterMap (fun b => b snap) = [] :=
      List.filterMap_eq_nil_iff.mpr h
    simp [joinErrors, hnil]

/-! ## Adaptive tracer (`core`, `executeFunctionWithProfiling`)

`executeFunctionWithProfiling(name, fn)` (1) checks the `callCounters`
table for overflow and evicts one entry if `len > maxTrackedFunctions`,
(2) increments the per-identity `uint64` counter, (3) decides
`shouldProfile := count % samplingRate == 0`, (4) invokes `fn` while
measuring, and (5) checks the `functionMetrics` table for overflow the
same way and upserts the per-function record.  The wall-clock, goroutine
and memory readings are environment inputs, bundled in `Measurement`. -/

/-- `const maxTrackedFunctions = 10000`. -/
def maxTrackedFunctions : Nat := 10000

/-- Modelled from the spec: the struct `models.FunctionMetrics` (the
`models` package is not under `src/`).  The field names and their value
types are visible in the tracer's assignments in
`executeFunctionWithProfiling` (`time.Time`, `time.Duration`, `int`,
`uint64`, two `string`s), and §3 of the spec fixes the record's
attributes as exactly these: last-invocation timestamp, last elapsed
duration, last concurrency-unit delta, last memory-delta, and the two
profile-artifact paths.  All fields are Go value types (no maps or
slices), so a struct copy of this record shares no state with the
original. -/
structure FunctionMetrics where
  functionLastRanAt : Nat
  executionTime : Nat
  goroutineCount : Nat
  memoryUsage : Nat
  cpuProfileFilePath : String
  memProfileFilePath : String
deriving DecidableEq, Repr

/-- The environment readings of one traced invocation: `start`
(`time.Now()`), elapsed duration, goroutine delta (already floored at
zero by the code), the memory delta reading, and the chosen profile
artifact paths. -/
structure Measurement where
  startTime : Nat
  elapsed : Nat
  goroutineDelta : Nat
  memoryUsage : Nat
  cpuPath : String
  memPath : String
deriving DecidableEq, Repr

/-- The tracer's two process-wide tables. -/
structure TraceState where
  callCounters : Table Nat
  functionMetrics : Table FunctionMetrics
deriving Repr

/-- `if len(m) > maxTrackedFunctions { for k := range m { delete(m, k);
break } }`: evicts one entry when the table exceeds the cap.  Go deletes
an *arbitrary* key (map iteration order is unspecified); the model
removes the first stored entry, one concrete instance of that policy. -/
def evictIfOver {α : Type} (t : Table α) : Table α :=
  if t.length > maxTrackedFunctions then t.drop 1 else t

/-- `callCounters[name]++; count := callCounters[name]` on a `uint64`
counter (wraps at `2 ^ 64`; an absent key reads as zero). -/
def bumpCounter (t : Table Nat) (name : String) : Table Nat × Nat :=
  let c := ((lookupTable t name).getD 0 + 1) % 2 ^ 64
  (setTable t name c, c)

/-- The update branch of the final upsert: last-run timestamp, elapsed
duration and goroutine delta are always rewritten; memory usage and the
two profile paths only under `if shouldProfile`. -/
def applyUpdate (sampled : Bool) (meas : Measurement)
    (m : FunctionMetrics) : FunctionMetrics :=
  let m1 := { m with functionLastRanAt := meas.startTime,
                     executionTime := meas.elapsed,
                     goroutineCount := meas.goroutineDelta }
  if sampled then
    { m1 with memoryUsage := meas.memoryUsage,
              cpuProfileFilePath := meas.cpuPath,
              memProfileFilePath := meas.memPath }
  else m1

/-- The record created when the identity has no entry at upsert time: the
local `memoryUsage` and path variables are zero-valued ("" for paths)
unless the invocation was sampled. -/
def freshMetrics (sampled : Bool) (meas : Measurement) : FunctionMetrics :=
  { functionLastRanAt := meas.startTime
    executionTime := meas.elapsed
    goroutineCount := meas.goroutineDelta
    memoryUsage := if sampled then meas.memoryUsage else 0
    cpuProfileFilePath := if sampled then meas.cpuPath else ""
    memProfileFilePath := if sampled then meas.memPath else "" }

/-- One call of `executeFunctionWithProfiling(name, fn)` at sampling rate
`rate` (the `uint64` view of the atomic; always ≥ 1 by C8).  Returns the
new state and the sampling decision of this invocation. -/
def stepTrace (rate : Nat) (name : String) (meas : Measurement)
    (s : TraceState) : TraceState × Bool :=
  let counters := evictIfOver s.callCounters
  let bumped := bumpCounter counters name
  let sampled := bumped.2 % rate == 0
  let metrics := evictIfOver s.functionMetrics
  let metricsNew :=
    match lookupTable metrics name with
    | some m => setTable metrics name (applyUpdate sampled meas m)
    | none => setTable metrics name (freshMetrics sampled meas)
  (⟨bumped.1, metricsNew⟩, sampled)

/-- A sequence of traced invocations, run left to right.  Returns the
final state and the per-invocation sampling decisions in order. -/
def runTraceList (rate : Nat) : List (String × Measurement) → TraceState →
    TraceState × List Bool
  | [], s => (s, [])
  | (name, meas) :: rest, s =>
    let r1 := stepTrace rate name meas s
    let r2 := runTraceList rate rest r1.1
    (r2.1, r1.2 :: r2.2)

/-- The counter table of a single-identity run that has seen `c`
invocations so far: absent before the first one, `c` afterwards. -/
def counterStart (name : String) (c : Nat) : Table Nat :=
  if c = 0 then [] else [(name, c)]

theorem stepTrace_single (rate : Nat) (name : String) (meas : Measurement)
    (c : Nat) (M : Table FunctionMetrics) (hc : c + 1 < 2 ^ 64) :
    (stepTrace rate name meas ⟨counterStart name c, M⟩).1.callCounters =
      counterStart name (c + 1) ∧
    (stepTrace rate name meas ⟨counterStart name c, M⟩).2 =
      ((c + 1) % rate == 0) := by
  rw [(by norm_num : (2 : Nat) ^ 64 = 18446744073709551616)] at hc
  have hmod : (c + 1) % 18446744073709551616 = c + 1 := Nat.mod_eq_of_lt hc
  by_cases h0 : c = 0
  · subst h0
    constructor <;>
      simp [stepTrace, counterStart, evictIfOver, maxTrackedFunctions,
        bumpCounter, lookupTable, setTable, hmod]
  · constructor <;>
      simp [stepTrace, counterStart, evictIfOver, maxTrackedFunctions,
        bumpCounter, lookupTable, setTable, hmod, h0]

theorem runTrace_single (rate : Nat) (name : String) :
    ∀ (ms : List Measurement) (c : Nat) (M : Table FunctionMetrics),
      c + ms.length < 2 ^ 64 →
      (runTraceList rate (ms.map (fun m => (name, m)))
          ⟨counterStart name c, M⟩).2 =
        (List.range ms.length).map (fun i => ((c + (i + 1)) % rate == 0)) := by
  intro ms
  induction ms with
  | nil => intro c M h; rfl
  | cons m rest ih =>
    intro c M h
    have hc : c + 1 < 2 ^ 64 := by
      simp only [List.length_cons] at h
      omega
    obtain ⟨h1, h2⟩ := stepTrace_single rate name m c M hc
    rcases hr : stepTrace rate name m ⟨counterStart name c, M⟩ with ⟨s1, d⟩
    rw [hr] at h1 h2
    obtain ⟨cc, fm⟩ := s1
    simp only at h1 h2
    subst h1
    subst h2
    have hrest := ih (c + 1) fm
      (by simp only [List.length_cons] at h; omega)
    simp only [List.map_cons, runTraceList, hr]
    rw [hrest]
    simp only [List.length_cons, List.range_succ_eq_map, List.map_cons,
      List.map_map]
    refine List.cons_eq_cons.mpr ⟨by norm_num, ?_⟩
    apply List.map_congr_left
    intro i _
    show ((c + 1 + (i + 1)) % rate == 0) =
      ((c + (Nat.succ i + 1)) % rate == 0)
    have heq : c + 1 + (i + 1) = c + (Nat.succ i + 1) := by omega
    rw [heq]

theorem count_sampled (rate : Nat) (hrate : 1 ≤ rate) (L : Nat) :
    ((List.range L).map (fun i => ((i + 1) % rate == 0))).count true =
      L / rate := by
  induction L with
  | zero => simp
  | succ n ih =>
    rw [List.range_succ, List.map_append, List.count_append, ih]
    by_cases h : (n + 1) % rate = 0
    · have hd : rate ∣ n + 1 := Nat.dvd_iff_mod_eq_zero.mpr h
      simp [h, Nat.succ_div, hd]
    · have hd : ¬rate ∣ n + 1 := fun hdd =>
        h (Nat.dvd_iff_mod_eq_zero.mp hdd)
      simp [h, Nat.succ_div, hd]

/-- C1: for every sampling rate `R ≥ 1` and every sequence of `L` traced
invocations of a single identity (the single-identity counter table never
reaches the eviction cap), exactly `⌊L ∕ R⌋` of the invocations are
sampled, namely those whose per-identity invocation count is a positive
multiple of `R` and no others, and the decision of the `i`-th invocation
(count `i + 1`) is `(i + 1) % R == 0`.  The length bound keeps the
`uint64` counter exact. -/
theorem trace_sampling_floor (rate : Nat) (name : String)
    (ms : List Measurement) (hrate : 1 ≤ rate) (hlen : ms.length < 2 ^ 64) :
    (runTraceList rate (ms.map (fun m => (name, m))) ⟨[], []⟩).2 =
      (List.range ms.length).map (fun i => ((i + 1) % rate == 0)) ∧
    ((runTraceList rate (ms.map (fun m => (name, m))) ⟨[], []⟩).2).count true =
      ms.length / rate ∧
    ∀ i : Nat,
      (((i + 1) % rate == 0) = true ↔ ∃ k, 1 ≤ k ∧ i + 1 = k * rate) := by
  have h0 : (⟨[], []⟩ : TraceState) = ⟨counterStart name 0, []⟩ := rfl
  have hds := runTrace_single rate name ms 0 [] (by omega)
  rw [h0]
  have hds0 : (runTraceList rate (ms.map (fun m => (name, m)))
      ⟨counterStart name 0, []⟩).2 =
      (List.range ms.length).map (fun i => ((i + 1) % rate == 0)) := by
    rw [hds]
    apply List.map_congr_left
    intro i _
    norm_num
  refine ⟨hds0, ?_, ?_⟩
  · rw [hds0]
    exact count_sampled rate hrate ms.length
  · intro i
    constructor
    · intro h
      have hmod : (i + 1) % rate = 0 := by simpa using h
      obtain ⟨k, hk⟩ := Nat.dvd_iff_mod_eq_zero.mpr hmod
      have hk1 : 1 ≤ k := by
        rcases Nat.eq_zero_or_pos k with rfl | hp
        · simp at hk
        · exact hp
      exact ⟨k, hk1, by rw [hk, Nat.mul_comm]⟩
    · rintro ⟨k, hk1, hk2⟩
      have : (i + 1) % rate = 0 := by
        rw [hk2]
        exact Nat.mul_mod_left k rate
      simpa using this

theorem trace_sampling_floor_witness :
    ((runTraceList 2
        ((List.replicate 5 (⟨0, 0, 0, 0, "", ""⟩ : Measurement)).map
          (fun m => ("f", m))) ⟨[], []⟩).2).count true = 5 / 2 := by
  have h := trace_sampling_floor 2 "f"
    (List.replicate 5 ⟨0, 0, 0, 0, "", ""⟩) (by norm_num) (by norm_num)
  simpa using h.2.1

/-! ## Table-cap behavior (claim C3)

The eviction guard in `executeFunctionWithProfiling` is the *strict*
comparison `len(table) > maxTrackedFunctions`, checked before the
insert.  A table holding exactly `maxTrackedFunctions` entries therefore
passes the guard and the subsequent insert of a fresh identity grows it
to `maxTrackedFunctions + 1` — one more than the cap. -/

theorem keysOf_cons {α : Type} (k : String) (v : α) (t : Table α) :
    keysOf ((k, v) :: t) = k :: keysOf t := rfl

theorem lookupTable_eq_none {α : Type} (t : Table α) (n : String)
    (h : n ∉ keysOf t) : lookupTable t n = none := by
  induction t with
  | nil => rfl
  | cons hd tl ih =>
    obtain ⟨k, v⟩ := hd
    rw [keysOf_cons, List.mem_cons, not_or] at h
    obtain ⟨h1, h2⟩ := h
    show (if k = n then some v else lookupTable tl n) = none
    rw [if_neg (fun hk => h1 hk.symm)]
    exact ih h2

theorem keysOf_setTable {α : Type} (t : Table α) (n : String) (v : α) :
    keysOf (setTable t n v) =
      if n ∈ keysOf t then keysOf t else keysOf t ++ [n] := by
  induction t with
  | nil => simp [setTable, keysOf]
  | cons hd tl ih =>
    obtain ⟨k, w⟩ := hd
    by_cases h : k = n
    · subst h
      simp [setTable, keysOf_cons]
    · have hnk : n ≠ k := fun he => h he.symm
      have hmemiff : n ∈ k :: keysOf tl ↔ n ∈ keysOf tl := by
        simp [List.mem_cons, hnk]
      simp only [setTable, if_neg h, keysOf_cons, ih, hmemiff]
      by_cases hm : n ∈ keysOf tl
      · simp [hm]
      · simp [hm]

theorem length_keysOf {α : Type} (t : Table α) :
    (keysOf t).length = t.length := by
  simp [keysOf]

theorem length_setTable {α : Type} (t : Table α) (n : String) (v : α) :
    (setTable t n v).length =
      if n ∈ keysOf t then t.length else t.length + 1 := by
  have h := congrArg List.length (keysOf_setTable t n v)
  rw [length_keysOf] at h
  rw [h]
  by_cases hm : n ∈ keysOf t <;> simp [hm, length_keysOf]

theorem nodup_keysOf_setTable {α : Type} (t : Table α) (n : String) (v : α)
    (h : (keysOf t).Nodup) : (keysOf (setTable t n v)).Nodup := by
  rw [keysOf_setTable]
  by_cases hm : n ∈ keysOf t
  · simpa [hm] using h
  · simp [hm, List.nodup_append, h]

theorem evictIfOver_le {α : Type} (t : Table α)
    (h : t.length ≤ maxTrackedFunctions) : evictIfOver t = t := by
  have hno : ¬(t.length > maxTrackedFunctions) := by omega
  simp [evictIfOver, hno]

theorem evictIfOver_length {α : Type} (t : Table α)
    (h : t.length ≤ maxTrackedFunctions + 1) :
    (evictIfOver t).length ≤ maxTrackedFunctions := by
  by_cases hgt : t.length > maxTrackedFunctions
  · simp only [evictIfOver, gt_iff_lt, if_pos hgt, List.length_drop]
    omega
  · simp only [evictIfOver, gt_iff_lt, if_neg hgt]
    omega

theorem nodup_keysOf_evictIfOver {α : Type} (t : Table α)
    (h : (keysOf t).Nodup) : (keysOf (evictIfOver t)).Nodup := by
  by_cases hgt : t.length > maxTrackedFunctions
  · simp only [evictIfOver, gt_iff_lt, if_pos hgt]
    have hsub : keysOf (t.drop 1) <:+ keysOf t := by
      simp only [keysOf, List.map_drop]
      exact List.drop_suffix 1 _
    exact hsub.sublist.nodup h
  · simpa only [evictIfOver, gt_iff_lt, if_neg hgt] using h

theorem setTable_evict_bound {α : Type} (t : Table α) (n : String) (v : α)
    (hl : t.length ≤ maxTrackedFunctions + 1) (hn : (keysOf t).Nodup) :
    (setTable (evictIfOver t) n v).length ≤ maxTrackedFunctions + 1 ∧
    (keysOf (setTable (evictIfOver t) n v)).Nodup := by
  have h1 := evictIfOver_length t hl
  constructor
  · rw [length_setTable]
    by_cases hm : n ∈ keysOf (evictIfOver t) <;> simp [hm] <;> omega
  · exact nodup_keysOf_setTable _ _ _ (nodup_keysOf_evictIfOver t hn)

theorem stepTrace_counters_eq (rate : Nat) (name : String)
    (meas : Measurement) (s : TraceState) :
    ∃ c, (stepTrace rate name meas s).1.callCounters =
      setTable (evictIfOver s.callCounters) name c :=
  ⟨_, rfl⟩

theorem stepTrace_metrics_eq (rate : Nat) (name : String)
    (meas : Measurement) (s : TraceState) :
    ∃ rec, (stepTrace rate name meas s).1.functionMetrics =
      setTable (evictIfOver s.functionMetrics) name rec := by
  simp only [stepTrace]
  cases lookupTable (evictIfOver s.functionMetrics) name <;> exact ⟨_, rfl⟩

/-- C3 (amended): for every sequence of traced invocations, the
function-metric table and the per-identity call-counter table never
exceed `maxTrackedFunctions + 1` entries (the strict `>` guard lets each
table hold one entry *more* than the `maxTrackedFunctions = 10000` cap,
see the counterexample), and after any eviction each table still maps
each remaining key to exactly one record: its key list stays duplicate
free. -/
theorem table_cap_bound (rate : Nat) (calls : List (String × Measurement)) :
    ∀ s : TraceState,
      s.callCounters.length ≤ maxTrackedFunctions + 1 →
      s.functionMetrics.length ≤ maxTrackedFunctions + 1 →
      (keysOf s.callCounters).Nodup →
      (keysOf s.functionMetrics).Nodup →
      (runTraceList rate calls s).1.callCounters.length ≤
          maxTrackedFunctions + 1 ∧
        (runTraceList rate calls s).1.functionMetrics.length ≤
          maxTrackedFunctions + 1 ∧
        (keysOf (runTraceList rate calls s).1.callCounters).Nodup ∧
        (keysOf (runTraceList rate calls s).1.functionMetrics).Nodup := by
  induction calls with
  | nil =>
    intro s h1 h2 h3 h4
    exact ⟨h1, h2, h3, h4⟩
  | cons c rest ih =>
    obtain ⟨name, meas⟩ := c
    intro s h1 h2 h3 h4
    obtain ⟨cv, hcv⟩ := stepTrace_counters_eq rate name meas s
    obtain ⟨mv, hmv⟩ := stepTrace_metrics_eq rate name meas s
    obtain ⟨hb1, hb3⟩ := setTable_evict_bound s.callCounters name cv h1 h3
    obtain ⟨hb2, hb4⟩ := setTable_evict_bound s.functionMetrics name mv h2 h4
    rw [← hcv] at hb1 hb3
    rw [← hmv] at hb2 hb4
    have := ih ((stepTrace rate name meas s).1) hb1 hb2 hb3 hb4
    simpa only [runTraceList] using this

theorem table_cap_bound_witness :
    (runTraceList 2 [("f", ⟨0, 0, 0, 0, "", ""⟩)]
        ⟨[], []⟩).1.callCounters.length ≤ maxTrackedFunctions + 1 := by
  have h := table_cap_bound 2 [("f", ⟨0, 0, 0, 0, "", ""⟩)] ⟨[], []⟩
    (by simp [maxTrackedFunctions]) (by simp [maxTrackedFunctions])
    (by simp [keysOf]) (by simp [keysOf])
  exact h.1

/-- Distinct function identities used to fill the tables in the
counterexamples: `"g"`, `"ga"`, `"gaa"`, …. -/
def fillName (i : Nat) : String :=
  String.mk ('g' :: List.replicate i 'a')

theorem fillName_injective : Function.Injective fillName := by
  intro i j h
  have hdata : ('g' :: List.replicate i 'a') =
      ('g' :: List.replicate j 'a') := congrArg String.data h
  have hlen := congrArg List.length hdata
  simpa using hlen

theorem fillName_ne_f (i : Nat) : fillName i ≠ "f" := by
  intro h
  have hdata : ('g' :: List.replicate i 'a') = "f".data :=
    congrArg String.data h
  rw [show "f".data = ['f'] from rfl] at hdata
  simp at hdata

theorem runTrace_fresh_growth (rate : Nat) (meas : Measurement) :
    ∀ (names : List String) (s : TraceState),
      names.Nodup →
      (∀ n ∈ names, n ∉ keysOf s.callCounters) →
      (∀ n ∈ names, n ∉ keysOf s.functionMetrics) →
      s.callCounters.length + names.length ≤ maxTrackedFunctions + 1 →
      s.functionMetrics.length + names.length ≤ maxTrackedFunctions + 1 →
      (runTraceList rate (names.map (fun n => (n, meas)))
          s).1.callCounters.length = s.callCounters.length + names.length ∧
      (runTraceList rate (names.map (fun n => (n, meas)))
          s).1.functionMetrics.length =
        s.functionMetrics.length + names.length := by
  intro names
  induction names with
  | nil =>
    intro s _ _ _ _ _
    simp [runTraceList]
  | cons n rest ih =>
    intro s hnd hfc hfm hlc hlm
    simp only [List.length_cons] at hlc hlm
    have hclen : s.callCounters.length ≤ maxTrackedFunctions := by omega
    have hmlen : s.functionMetrics.length ≤ maxTrackedFunctions := by omega
    have hevc : evictIfOver s.callCounters = s.callCounters :=
      evictIfOver_le _ hclen
    have hevm : evictIfOver s.functionMetrics = s.functionMetrics :=
      evictIfOver_le _ hmlen
    have hnc : n ∉ keysOf s.callCounters := hfc n (by simp)
    have hnm : n ∉ keysOf s.functionMetrics := hfm n (by simp)
    have hlc0 : lookupTable s.callCounters n = none :=
      lookupTable_eq_none _ _ hnc
    have hlm0 : lookupTable s.functionMetrics n = none :=
      lookupTable_eq_none _ _ hnm
    have hstep : (stepTrace rate n meas s).1 =
        ⟨setTable s.callCounters n 1,
          setTable s.functionMetrics n
            (freshMetrics (1 % rate == 0) meas)⟩ := by
      simp [stepTrace, hevc, hevm, hlc0, hlm0, bumpCounter]
    have hkeysc : keysOf (setTable s.callCounters n 1) =
        keysOf s.callCounters ++ [n] := by
      rw [keysOf_setTable, if_neg hnc]
    have hkeysm : keysOf (setTable s.functionMetrics n
        (freshMetrics (1 % rate == 0) meas)) =
        keysOf s.functionMetrics ++ [n] := by
      rw [keysOf_setTable, if_neg hnm]
    have hlsc : (setTable s.callCounters n 1).length =
        s.callCounters.length + 1 := by
      rw [length_setTable, if_neg hnc]
    have hlsm : (setTable s.functionMetrics n
        (freshMetrics (1 % rate == 0) meas)).length =
        s.functionMetrics.length + 1 := by
      rw [length_setTable, if_neg hnm]
    have hrest := ih ((stepTrace rate n meas s).1)
      (List.Nodup.of_cons hnd)
      (by
        intro x hx
        rw [hstep]
        simp only [hkeysc, List.mem_append, List.mem_singleton, not_or]
        refine ⟨hfc x (by simp [hx]), ?_⟩
        intro hxn
        subst hxn
        exact (List.nodup_cons.mp hnd).1 hx)
      (by
        intro x hx
        rw [hstep]
        simp only [hkeysm, List.mem_append, List.mem_singleton, not_or]
        refine ⟨hfm x (by simp [hx]), ?_⟩
        intro hxn
        subst hxn
        exact (List.nodup_cons.mp hnd).1 hx)
      (by rw [hstep]; simp only [hlsc]; omega)
      (by rw [hstep]; simp only [hlsm]; omega)
    rw [hstep] at hrest
    simp only [List.map_cons, runTraceList, hstep, hrest.1, hrest.2,
      List.length_cons, hlsc, hlsm]
    omega

/-- The trace used by the C3 counterexample: `maxTrackedFunctions + 1`
distinct identities invoked once each, from the empty initial state. -/
def capCalls : List (String × Measurement) :=
  (List.range (maxTrackedFunctions + 1)).map
    (fun i => (fillName i, ⟨0, 0, 0, 0, "", ""⟩))

set_option maxRecDepth 4000 in
/-- C3 counterexample: after tracing `maxTrackedFunctions + 1 = 10001`
distinct identities once each from the empty state, both tables hold
`10001` entries — strictly more than the `maxTrackedFunctions = 10000`
cap the claim asserts is never exceeded. -/
theorem table_cap_counterexample :
    (runTraceList 1 capCalls ⟨[], []⟩).1.callCounters.length =
        maxTrackedFunctions + 1 ∧
    (runTraceList 1 capCalls ⟨[], []⟩).1.functionMetrics.length =
        maxTrackedFunctions + 1 ∧
    ¬((runTraceList 1 capCalls ⟨[], []⟩).1.functionMetrics.length ≤
        maxTrackedFunctions) := by
  have hcap : capCalls =
      ((List.range (maxTrackedFunctions + 1)).map fillName).map
        (fun n => (n, (⟨0, 0, 0, 0, "", ""⟩ : Measurement))) := by
    simp [capCalls, List.map_map]
  have hnd : ((List.range (maxTrackedFunctions + 1)).map fillName).Nodup :=
    (List.nodup_range _).map fillName_injective
  have hlen : ((List.range (maxTrackedFunctions + 1)).map fillName).length =
      maxTrackedFunctions + 1 := by simp
  have h := runTrace_fresh_growth 1 ⟨0, 0, 0, 0, "", ""⟩
    ((List.range (maxTrackedFunctions + 1)).map fillName) ⟨[], []⟩
    hnd
    (by intro x hx; simp [keysOf])
    (by intro x hx; simp [keysOf])
    (by simp [hlen])
    (by simp [hlen])
  rw [← hcap] at h
  rw [hlen] at h
  refine ⟨?_, ?_, ?_⟩
  · simpa using h.1
  · simpa using h.2
  · have h2 : (runTraceList 1 capCalls ⟨[], []⟩).1.functionMetrics.length =
        maxTrackedFunctions + 1 := by simpa using h.2
    omega

/-! ## Upsert field semantics (claim C5) -/

theorem applyUpdate_fields (b : Bool) (meas : Measurement)
    (m : FunctionMetrics) :
    (applyUpdate b meas m).functionLastRanAt = meas.startTime ∧
    (applyUpdate b meas m).executionTime = meas.elapsed ∧
    (applyUpdate b meas m).goroutineCount = meas.goroutineDelta ∧
    (b = true →
      (applyUpdate b meas m).memoryUsage = meas.memoryUsage ∧
      (applyUpdate b meas m).cpuProfileFilePath = meas.cpuPath ∧
      (applyUpdate b meas m).memProfileFilePath = meas.memPath) ∧
    (b = false →
      (applyUpdate b meas m).memoryUsage = m.memoryUsage ∧
      (applyUpdate b meas m).cpuProfileFilePath = m.cpuProfileFilePath ∧
      (applyUpdate b meas m).memProfileFilePath = m.memProfileFilePath) := by
  cases b <;> simp [applyUpdate]

/-- C5 (amended): for every traced invocation of an identity that already
has a metric record, *provided the metric table has not exceeded its cap*
(so the pre-upsert eviction does not fire and cannot remove that very
record), the upsert always rewrites the last-run timestamp, elapsed
duration and concurrency-unit (goroutine) delta, and rewrites the memory
delta and the CPU/memory profile paths exactly when the invocation was
sampled; a non-sampled invocation leaves the stored memory delta and
profile paths unchanged.  Without the cap proviso the claim fails — see
the counterexample, where the eviction removes the identity's own record
and a non-sampled invocation resets its memory delta and paths. -/
theorem update_sampled_fields (rate : Nat) (name : String)
    (meas : Measurement) (s : TraceState) (m : FunctionMetrics)
    (hlen : s.functionMetrics.length ≤ maxTrackedFunctions)
    (hm : lookupTable s.functionMetrics name = some m) :
    ∃ m2,
      lookupTable (stepTrace rate name meas s).1.functionMetrics name =
          some m2 ∧
      m2.functionLastRanAt = meas.startTime ∧
      m2.executionTime = meas.elapsed ∧
      m2.goroutineCount = meas.goroutineDelta ∧
      ((stepTrace rate name meas s).2 = true →
        m2.memoryUsage = meas.memoryUsage ∧
        m2.cpuProfileFilePath = meas.cpuPath ∧
        m2.memProfileFilePath = meas.memPath) ∧
      ((stepTrace rate name meas s).2 = false →
        m2.memoryUsage = m.memoryUsage ∧
        m2.cpuProfileFilePath = m.cpuProfileFilePath ∧
        m2.memProfileFilePath = m.memProfileFilePath) := by
  have hev : evictIfOver s.functionMetrics = s.functionMetrics :=
    evictIfOver_le _ hlen
  have hfm : (stepTrace rate name meas s).1.functionMetrics =
      setTable s.functionMetrics name
        (applyUpdate (stepTrace rate name meas s).2 meas m) := by
    simp only [stepTrace, hev, hm]
  obtain ⟨h1, h2, h3, h4, h5⟩ :=
    applyUpdate_fields (stepTrace rate name meas s).2 meas m
  exact ⟨applyUpdate (stepTrace rate name meas s).2 meas m,
    by rw [hfm]; exact lookupTable_setTable_self _ _ _,
    h1, h2, h3, h4, h5⟩

theorem update_sampled_fields_witness :
    ∃ m2,
      lookupTable
          (stepTrace 2 "f" ⟨1, 2, 3, 9, "c2", "m2"⟩
            ⟨[], [("f", ⟨0, 0, 0, 7, "c1", "m1"⟩)]⟩).1.functionMetrics "f" =
        some m2 ∧
      m2.functionLastRanAt = 1 ∧
      m2.memoryUsage = 7 ∧
      m2.cpuProfileFilePath = "c1" := by
  have h := update_sampled_fields 2 "f" ⟨1, 2, 3, 9, "c2", "m2"⟩
    ⟨[], [("f", ⟨0, 0, 0, 7, "c1", "m1"⟩)]⟩ ⟨0, 0, 0, 7, "c1", "m1"⟩
    (by simp [maxTrackedFunctions]) (by simp [lookupTable])
  obtain ⟨m2, hl, h1, _, _, _, hn⟩ := h
  have hs : (stepTrace 2 "f" ⟨1, 2, 3, 9, "c2", "m2"⟩
      ⟨[], [("f", ⟨0, 0, 0, 7, "c1", "m1"⟩)]⟩).2 = false := rfl
  obtain ⟨h4, h5, _⟩ := hn hs
  exact ⟨m2, hl, h1, by rw [h4], by rw [h5]⟩

/-- The metric table of the C5 counterexample: the record of identity
`"f"` (stored memory delta `7`, stored profile paths) plus
`maxTrackedFunctions` filler records — `10001` entries, so the pre-upsert
eviction fires and (in this model's instance of Go's arbitrary map
iteration order) removes the entry of `"f"` itself.  Such an over-cap
table is reachable: the C3 counterexample drives both tables to `10001`
entries. -/
def clobberTable : Table FunctionMetrics :=
  ("f", ⟨0, 0, 0, 7, "c1", "m1"⟩) ::
    (List.range maxTrackedFunctions).map
      (fun i => (fillName i, ⟨0, 0, 0, 0, "", ""⟩))

set_option maxRecDepth 4000 in
/-- C5 counterexample: with the metric table over its cap, a non-sampled
invocation of `"f"` (an identity that *does* have a metric record, with
stored memory delta `7` and stored profile paths) does not leave the
stored memory delta and profile paths unchanged: the eviction removes the
record and the upsert re-creates it with memory delta `0` and empty
paths. -/
theorem update_eviction_clobber_counterexample :
    lookupTable clobberTable "f" = some ⟨0, 0, 0, 7, "c1", "m1"⟩ ∧
    (stepTrace 2 "f" ⟨1, 2, 3, 9, "c2", "m2"⟩ ⟨[], clobberTable⟩).2 =
      false ∧
    lookupTable
        (stepTrace 2 "f" ⟨1, 2, 3, 9, "c2", "m2"⟩
          ⟨[], clobberTable⟩).1.functionMetrics "f" =
      some ⟨1, 2, 3, 0, "", ""⟩ := by
  have hlen : clobberTable.length = maxTrackedFunctions + 1 := by
    simp [clobberTable]
  have hgt : clobberTable.length > maxTrackedFunctions := by
    rw [hlen]
    omega
  have hev : evictIfOver clobberTable =
      (List.range maxTrackedFunctions).map
        (fun i => (fillName i, (⟨0, 0, 0, 0, "", ""⟩ : FunctionMetrics))) := by
    simp only [evictIfOver, gt_iff_lt, if_pos hgt]
    rfl
  have hnomem : "f" ∉ keysOf ((List.range maxTrackedFunctions).map
      (fun i => (fillName i, (⟨0, 0, 0, 0, "", ""⟩ : FunctionMetrics)))) := by
    intro hmem
    simp only [keysOf, List.map_map, List.mem_map, Function.comp] at hmem
    obtain ⟨i, _, hi⟩ := hmem
    exact fillName_ne_f i hi
  have hlook : lookupTable ((List.range maxTrackedFunctions).map
      (fun i => (fillName i, (⟨0, 0, 0, 0, "", ""⟩ : FunctionMetrics)))) "f" =
      none := lookupTable_eq_none _ _ hnomem
  have hs : (stepTrace 2 "f" ⟨1, 2, 3, 9, "c2", "m2"⟩
      ⟨[], clobberTable⟩).2 = false := rfl
  refine ⟨by simp [clobberTable, lookupTable], hs, ?_⟩
  have hfm : (stepTrace 2 "f" ⟨1, 2, 3, 9, "c2", "m2"⟩
      ⟨[], clobberTable⟩).1.functionMetrics =
      setTable ((List.range maxTrackedFunctions).map
          (fun i => (fillName i, (⟨0, 0, 0, 0, "", ""⟩ : FunctionMetrics))))
        "f"
        (freshMetrics
          (stepTrace 2 "f" ⟨1, 2, 3, 9, "c2", "m2"⟩ ⟨[], clobberTable⟩).2
          ⟨1, 2, 3, 9, "c2", "m2"⟩) := by
    simp only [stepTrace, hev, hlook]
  rw [hfm, hs, lookupTable_setTable_self]
  simp [freshMetrics]

/-! ## Argument-capturing trace variants (claim C6)

`TraceFunctionWithArgs` / `TraceFunctionWithReturns` validate, via
`reflect`, that the supplied argument count equals the callable's
declared parameter count and that each argument's dynamic type is
assignable to the declared parameter type; on any mismatch they log an
error and return before `executeFunctionWithProfiling` (so `fnValue.Call`
never runs).  Dynamic types are embedded as tags, and
`reflect`'s `AssignableTo` is an oracle parameter. -/

/-- A dynamic Go type tag as seen through `reflect.Type`. -/
inductive GoTy
  | tinteger
  | tstring
  | tbool
  | tother (n : Nat)
deriving DecidableEq, Repr

/-- A `reflect.Value`: a dynamic type tag plus an opaque payload. -/
structure GoVal where
  ty : GoTy
  payload : Nat
deriving DecidableEq, Repr

/-- Outcome of a `TraceFunctionWith*` call: whether an argument-shape
error was logged (aborting the call), whether the callable was actually
invoked (`fnValue.Call`), and the captured results (`nil` — `none` —
unless the returns variant invoked the callable). -/
structure TraceOutcome where
  errored : Bool
  invoked : Bool
  results : Option (List GoVal)
deriving DecidableEq, Repr

/-- The validation loop over argument positions (reached only when the
count check passed): `argValue.Type().AssignableTo(expectedType)` at each
position, `none` at the first mismatch. -/
def buildArgs (assignable : GoTy → GoTy → Bool) :
    List GoTy → List GoVal → Option (List GoVal)
  | [], [] => some []
  | p :: ps, a :: args =>
    if assignable a.ty p then
      (buildArgs assignable ps args).map (fun vs => a :: vs)
    else
      none
  | _, _ => none

/-- `TraceFunctionWithReturns(ctx, f, args...)` for a callable with
declared parameter types `params` and body `body`. -/
def traceFunctionWithReturnsM (assignable : GoTy → GoTy → Bool)
    (params : List GoTy) (body : List GoVal → List GoVal)
    (args : List GoVal) : TraceOutcome :=
  if args.length ≠ params.length then ⟨true, false, none⟩
  else
    match buildArgs assignable params args with
    | none => ⟨true, false, none⟩
    | some vs => ⟨false, true, some (body vs)⟩

/-- `TraceFunctionWithArgs(ctx, f, args...)`: same validation, call
results discarded. -/
def traceFunctionWithArgsM (assignable : GoTy → GoTy → Bool)
    (params : List GoTy) (body : List GoVal → List GoVal)
    (args : List GoVal) : TraceOutcome :=
  if args.length ≠ params.length then ⟨true, false, none⟩
  else
    match buildArgs assignable params args with
    | none => ⟨true, false, none⟩
    | some _ => ⟨false, true, none⟩

theorem buildArgs_eq_none (assignable : GoTy → GoTy → Bool) :
    ∀ (params : List GoTy) (args : List GoVal) (i : Nat)
      (ha : i < args.length) (hp : i < params.length),
      assignable (args.get ⟨i, ha⟩).ty (params.get ⟨i, hp⟩) = false →
      buildArgs assignable params args = none := by
  intro params
  induction params with
  | nil =>
    intro args i ha hp hbad
    exact absurd hp (by simp)
  | cons p ps ih =>
    intro args i ha hp hbad
    cases args with
    | nil => simp at ha
    | cons a as =>
      cases i with
      | zero =>
        simp only [List.get] at hbad
        simp [buildArgs, hbad]
      | succ j =>
        by_cases hass : assignable a.ty p
        · have hb := ih as j (by simpa using ha) (by simpa using hp)
            (by simpa using hbad)
          simp [buildArgs, hass, hb]
        · simp [buildArgs, hass]

/-- C6: whenever the argument count differs from the callable's declared
parameter count, or some argument's dynamic type is not assignable to the
corresponding declared parameter type, both argument-capturing trace
variants report an argument-shape error and never invoke the callable
(and the returns variant yields `nil` results). -/
theorem traceWithArgs_validation (assignable : GoTy → GoTy → Bool)
    (params : List GoTy) (body : List GoVal → List GoVal)
    (args : List GoVal)
    (hbad : args.length ≠ params.length ∨
      ∃ i, ∃ (ha : i < args.length) (hp : i < params.length),
        assignable (args.get ⟨i, ha⟩).ty (params.get ⟨i, hp⟩) = false) :
    (traceFunctionWithArgsM assignable params body args).errored = true ∧
    (traceFunctionWithArgsM assignable params body args).invoked = false ∧
    (traceFunctionWithReturnsM assignable params body args).errored = true ∧
    (traceFunctionWithReturnsM assignable params body args).invoked = false ∧
    (traceFunctionWithReturnsM assignable params body args).results =
      none := by
  rcases hbad with hne | ⟨i, ha, hp, hbad⟩
  · simp [traceFunctionWithArgsM, traceFunctionWithReturnsM, hne]
  · by_cases hlen : args.length = params.length
    · have hb := buildArgs_eq_none assignable params args i ha hp hbad
      simp [traceFunctionWithArgsM, traceFunctionWithReturnsM, hlen, hb]
    · simp [traceFunctionWithArgsM, traceFunctionWithReturnsM, hlen]

theorem traceWithArgs_validation_witness :
    (traceFunctionWithArgsM (fun a b => decide (a = b))
        [GoTy.tinteger, GoTy.tinteger] (fun _ => [])
        [⟨GoTy.tinteger, 3⟩]).invoked = false ∧
    (traceFunctionWithReturnsM (fun a b => decide (a = b))
        [GoTy.tinteger, GoTy.tinteger] (fun _ => [])
        [⟨GoTy.tinteger, 3⟩]).errored = true := by
  have h := traceWithArgs_validation (fun a b => decide (a = b))
    [GoTy.tinteger, GoTy.tinteger] (fun _ => []) [⟨GoTy.tinteger, 3⟩]
    (Or.inl (by decide))
  exact ⟨h.2.1, h.2.2.1⟩

/-! ## Export pipeline (`internal/pipeline/pipeline.go`) (claim C9) -/

/-- The pipeline loop between `Start` and `Stop`, abstracting real time
to the number `n` of completed ticks.  One tick reads
`metrics := p.registry.GetAll()` and, if `len(metrics) > 0`, calls
`Export(ctx, metrics)`; `regAt i` is the registry contents the `i`-th
tick observes.  The result is the sequence of snapshots actually handed
to the exporter. -/
def pipelineRun (regAt : Nat → Registry) : Nat → List (List MetricValue)
  | 0 => []
  | n + 1 =>
    pipelineRun regAt n ++
      (if 0 < (getAll (regAt n)).length then [getAll (regAt n)] else [])

/-- C9: the pipeline hands the `GetAll()` snapshot to the exporter only
when it is non-empty: every export call is a non-empty snapshot of some
tick; with an always-empty registry a start/stop run of any length
performs zero export calls; and with one gauge stored throughout, a run
with at least one tick performs at least one export call, each containing
that gauge.  Real time (tick interval, stop/cancel signal) is abstracted
to the tick count `n`. -/
theorem pipeline_tick_exports (regAt : Nat → Registry) (n : Nat) :
    (∀ e ∈ pipelineRun regAt n, e ≠ [] ∧ ∃ i, i < n ∧ e = getAll (regAt i)) ∧
    ((∀ i, i < n → regAt i = newRegistry) → pipelineRun regAt n = []) ∧
    (∀ (name : String) (v : ℚ) (labels : Table String) (ts : Nat),
      (∀ i, i < n → regAt i = setGauge newRegistry name v labels ts) →
      1 ≤ n →
      pipelineRun regAt n ≠ [] ∧
        ∀ e ∈ pipelineRun regAt n,
          (⟨name, v, labels, ts, .gauge⟩ : MetricValue) ∈ e) := by
  refine ⟨?_, ?_, ?_⟩
  · induction n with
    | zero => intro e he; simp [pipelineRun] at he
    | succ k ih =>
      intro e he
      simp only [pipelineRun, List.mem_append] at he
      rcases he with he | he
      · obtain ⟨hne, i, hi, hei⟩ := ih e he
        exact ⟨hne, i, by omega, hei⟩
      · by_cases hpos : 0 < (getAll (regAt k)).length
        · rw [if_pos hpos, List.mem_singleton] at he
          subst he
          refine ⟨?_, k, by omega, rfl⟩
          intro hnil
          rw [hnil] at hpos
          simp at hpos
        · rw [if_neg hpos] at he
          simp at he
  · induction n with
    | zero => intro _; rfl
    | succ k ih =>
      intro hreg
      have hk : pipelineRun regAt k = [] :=
        ih (fun i hi => hreg i (by omega))
      have hkreg : regAt k = newRegistry := hreg k (by omega)
      simp [pipelineRun, hk, hkreg, getAll, newRegistry]
  · intro name v labels ts hreg hn
    have hget : ∀ i, i < n →
        getAll (regAt i) = [⟨name, v, labels, ts, .gauge⟩] := by
      intro i hi
      rw [hreg i hi]
      rfl
    have hrun : ∀ m, m ≤ n → pipelineRun regAt m =
        List.replicate m [(⟨name, v, labels, ts, .gauge⟩ : MetricValue)] := by
      intro m
      induction m with
      | zero => intro _; rfl
      | succ k ih =>
        intro hm
        have hg := hget k (by omega)
        rw [pipelineRun, ih (by omega), hg]
        simp [List.replicate_succ']
    rw [hrun n (by omega)]
    constructor
    · simp only [ne_eq, List.replicate_eq_nil_iff]
      omega
    · intro e he
      have := List.eq_of_mem_replicate he
      rw [this]
      simp

theorem pipeline_tick_exports_witness :
    pipelineRun (fun _ => newRegistry) 3 = [] ∧
    pipelineRun (fun _ => setGauge newRegistry "x" 10 [] 0) 1 ≠ [] := by
  constructor
  · exact (pipeline_tick_exports (fun _ => newRegistry) 3).2.1
      (fun i _ => rfl)
  · exact ((pipeline_tick_exports
      (fun _ => setGauge newRegistry "x" 10 [] 0) 1).2.2
      "x" 10 [] 0 (fun i _ => rfl) (by norm_num)).1

/-! ## Snapshot independence (claim C4)

Go reference semantics, made explicit: `MetricValue` records are
heap-allocated structs reached through `*MetricValue` pointers, and the
`Labels map[string]string` field is itself a reference.  `GetAll` copies
each struct (`cp := *v`) into a fresh allocation and returns pointers to
the copies, so the copies' scalar fields are independent of the registry
— but the `Labels` field of a copy is the *same map reference* as the
stored record's.  The model below has a heap of label maps (`lheap`), a
heap of `MetricValue` structs (`mheap`, addresses are indices), and the
registry's name-to-struct-address map. -/

/-- A label map value on the heap. -/
abbrev Labels := Table String

/-- `registry.MetricValue` with the `Labels` reference explicit. -/
structure MetricValueH where
  name : String
  value : ℚ
  labelsRef : Nat
  timestamp : Nat
  type : MetricType
deriving DecidableEq, Repr

/-- The registry state with both heaps. -/
structure RegistryH where
  mheap : List MetricValueH
  lheap : List Labels
  metrics : Table Nat
deriving Repr

def mdefault : MetricValueH := ⟨"", 0, 0, 0, .gauge⟩

/-- Follow a `*MetricValue` pointer. -/
def derefM (r : RegistryH) (a : Nat) : MetricValueH :=
  r.mheap.getD a mdefault

/-- Read a label map through its reference. -/
def derefL (r : RegistryH) (a : Nat) : Labels :=
  r.lheap.getD a []

/-- The caller materialises a `map[string]string` before a write
(allocation returns the new state and the map's address). -/
def allocLabels (r : RegistryH) (l : Labels) : RegistryH × Nat :=
  ({ r with lheap := r.lheap ++ [l] }, r.lheap.length)

/-- `SetGauge`: allocates a fresh record struct keeping a reference to
the supplied label map, and stores the struct's address under the name. -/
def setGaugeH (r : RegistryH) (name : String) (value : ℚ)
    (labelsRef : Nat) (now : Nat) : RegistryH :=
  { r with
      mheap := r.mheap ++ [⟨name, value, labelsRef, now, .gauge⟩],
      metrics := setTable r.metrics name r.mheap.length }

/-- `GetAll`: for each stored entry, `cp := *v` allocates a struct copy
(sharing `labelsRef`); the returned slice holds the copies' addresses. -/
def getAllH (r : RegistryH) : RegistryH × List Nat :=
  (⟨r.mheap ++ r.metrics.map (fun kv => derefM r kv.2), r.lheap, r.metrics⟩,
   (List.range r.metrics.length).map (fun i => r.mheap.length + i))

/-- Caller mutation of a returned element's scalar field:
`snapshot[i].Value = v` writes the struct at address `a`. -/
def writeValueH (r : RegistryH) (a : Nat) (v : ℚ) : RegistryH :=
  let m := derefM r a
  { r with mheap := r.mheap.set a { m with value := v } }

/-- Caller mutation of a returned element's label map:
`snapshot[i].Labels[k] = v` writes through the copy's `labelsRef` into
the shared label map. -/
def writeLabelH (r : RegistryH) (a : Nat) (k v : String) : RegistryH :=
  let la := (derefM r a).labelsRef
  { r with lheap := r.lheap.set la (setTable (derefL r la) k v) }

/-- The fully resolved content a subsequent `GetAll` exposes: per stored
entry, the (name, value, labels, kind) reached through the pointers. -/
def snapshotContent (r : RegistryH) :
    List (String × ℚ × Labels × MetricType) :=
  r.metrics.map (fun kv =>
    ((derefM r kv.2).name, (derefM r kv.2).value,
      derefL r (derefM r kv.2).labelsRef, (derefM r kv.2).type))

/-- Registry well-formedness: every stored address points into the
struct heap. -/
def WFRegistry (r : RegistryH) : Prop :=
  ∀ kv ∈ r.metrics, kv.2 < r.mheap.length

theorem getD_set_ne {α : Type} (w d : α) :
    ∀ (l : List α) (i j : Nat), j ≠ i →
      (l.set i w).getD j d = l.getD j d := by
  intro l
  induction l with
  | nil => intro i j h; simp [List.set]
  | cons x xs ih =>
    intro i j h
    cases i with
    | zero =>
      cases j with
      | zero => exact absurd rfl h
      | succ jj => simp [List.set]
    | succ ii =>
      cases j with
      | zero => simp [List.set]
      | succ jj =>
        simp only [List.set, List.getD_cons_succ]
        exact ih ii jj (by omega)

theorem getD_append_left {α : Type} (d : α) :
    ∀ (l l2 : List α) (j : Nat), j < l.length →
      (l ++ l2).getD j d = l.getD j d := by
  intro l
  induction l with
  | nil => intro l2 j h; simp at h
  | cons x xs ih =>
    intro l2 j h
    cases j with
    | zero => simp
    | succ jj => simpa using ih l2 jj (by simpa using h)

/-- Registry half of C4: `GetAll` returns fresh struct copies, so
overwriting a returned element's scalar `Value` field — and taking the
snapshot itself — leaves the content every subsequent `GetAll` exposes
unchanged. -/
theorem getAll_copy_independence (r : RegistryH) (hwf : WFRegistry r)
    (a : Nat) (ha : a ∈ (getAllH r).2) (v : ℚ) :
    snapshotContent (getAllH r).1 = snapshotContent r ∧
    snapshotContent (writeValueH (getAllH r).1 a v) = snapshotContent r := by
  have haddr : r.mheap.length ≤ a := by
    simp only [getAllH, List.mem_map, List.mem_range] at ha
    obtain ⟨i, _, hi⟩ := ha
    omega
  have hderef1 : ∀ kv ∈ r.metrics,
      derefM (getAllH r).1 kv.2 = derefM r kv.2 := by
    intro kv hkv
    have hlt := hwf kv hkv
    simp only [getAllH, derefM]
    exact getD_append_left mdefault _ _ _ hlt
  have hderef2 : ∀ kv ∈ r.metrics,
      derefM (writeValueH (getAllH r).1 a v) kv.2 = derefM r kv.2 := by
    intro kv hkv
    have hlt := hwf kv hkv
    have hne : kv.2 ≠ a := by omega
    simp only [writeValueH, derefM]
    rw [getD_set_ne _ _ _ _ _ hne]
    exact hderef1 kv hkv
  constructor
  · apply List.map_congr_left
    intro kv hkv
    rw [hderef1 kv hkv]
    rfl
  · apply List.map_congr_left
    intro kv hkv
    rw [hderef2 kv hkv]
    rfl

/-- The concrete C4 scenario: a fresh registry, a caller-built label map
`[("k", "1")]`, and one gauge `"x" = 10` stored with a reference to it. -/
def regC4 : RegistryH :=
  setGaugeH (allocLabels ⟨[], [], []⟩ [("k", "1")]).1 "x" 10
    (allocLabels ⟨[], [], []⟩ [("k", "1")]).2 0

/-! ### `FunctionTraceDetails` half of C4

`FunctionTraceDetails()` clones the tracer's table under the lock:
`copied := *v; result[k] = &copied` for every entry, returning a fresh
map whose values are pointers to the fresh copies.  Because
`FunctionMetrics` holds only value-typed fields (see its definition
above), `copied := *v` is a *complete* copy: the copies share no state
with the live table.  The model mirrors the registry one: a heap of
`FunctionMetrics` structs (`fheap`, addresses are indices) and the
`functionMetrics` name-to-address map. -/

/-- The tracer's table with the struct references explicit. -/
structure TraceTableH where
  fheap : List FunctionMetrics
  table : Table Nat
deriving Repr

def fdefault : FunctionMetrics := ⟨0, 0, 0, 0, "", ""⟩

/-- Follow a `*models.FunctionMetrics` pointer. -/
def derefF (s : TraceTableH) (a : Nat) : FunctionMetrics :=
  s.fheap.getD a fdefault

/-- The result map `FunctionTraceDetails` builds: same keys as the live
table, the `i`-th entry bound to its copy's address `base + i`. -/
def copyAddrs (base : Nat) : Table Nat → Table Nat
  | [] => []
  | (k, _) :: rest => (k, base) :: copyAddrs (base + 1) rest

/-- `FunctionTraceDetails()`: one fresh struct copy per entry
(`copied := *v`), appended to the heap in table order; the returned map
holds the copies' addresses. -/
def functionTraceDetailsH (s : TraceTableH) : TraceTableH × Table Nat :=
  (⟨s.fheap ++ s.table.map (fun kv => derefF s kv.2), s.table⟩,
   copyAddrs s.fheap.length s.table)

/-- Caller mutation of a returned record: overwriting the struct at
address `a`.  This subsumes every single-field mutation, since
`FunctionMetrics` holds only value-typed fields. -/
def writeRecordH (s : TraceTableH) (a : Nat) (rec : FunctionMetrics) :
    TraceTableH :=
  { s with fheap := s.fheap.set a rec }

/-- The content reachable from the live table — what any subsequent
summary call exposes. -/
def detailsContent (s : TraceTableH) : Table FunctionMetrics :=
  s.table.map (fun kv => (kv.1, derefF s kv.2))

/-- The content of a returned summary, resolved through its pointers. -/
def resolvedDetails (p : TraceTableH × Table Nat) : Table FunctionMetrics :=
  p.2.map (fun kv => (kv.1, derefF p.1 kv.2))

/-- Trace-table well-formedness: every stored address points into the
struct heap. -/
def WFTraceTable (s : TraceTableH) : Prop :=
  ∀ kv ∈ s.table, kv.2 < s.fheap.length

theorem copyAddrs_length :
    ∀ (t : Table Nat) (base : Nat), (copyAddrs base t).length = t.length := by
  intro t
  induction t with
  | nil => intro base; rfl
  | cons hd rest ih =>
    obtain ⟨k, a⟩ := hd
    intro base
    simp [copyAddrs, ih]

theorem copyAddrs_mem_le :
    ∀ (t : Table Nat) (base : Nat), ∀ kv ∈ copyAddrs base t, base ≤ kv.2 := by
  intro t
  induction t with
  | nil => intro base kv hkv; simp [copyAddrs] at hkv
  | cons hd rest ih =>
    obtain ⟨k, a⟩ := hd
    intro base kv hkv
    simp only [copyAddrs, List.mem_cons] at hkv
    rcases hkv with rfl | hkv
    · exact le_refl base
    · have := ih (base + 1) kv hkv
      omega

theorem getD_append_right {α : Type} (d : α) :
    ∀ (l l2 : List α) (i : Nat), (l ++ l2).getD (l.length + i) d = l2.getD i d := by
  intro l
  induction l with
  | nil => intro l2 i; simp
  | cons x xs ih =>
    intro l2 i
    have hidx : (x :: xs).length + i = (xs.length + i) + 1 := by
      simp [List.length_cons]
      omega
    rw [hidx]
    simpa using ih l2 i

theorem copyAddrs_getElem :
    ∀ (t : Table Nat) (base i : Nat) (h1 : i < (copyAddrs base t).length)
      (h2 : i < t.length),
      (copyAddrs base t).get ⟨i, h1⟩ = ((t.get ⟨i, h2⟩).1, base + i) := by
  intro t
  induction t with
  | nil => intro base i h1 h2; simp at h2
  | cons hd rest ih =>
    obtain ⟨k, a⟩ := hd
    intro base i h1 h2
    cases i with
    | zero => rfl
    | succ j =>
      have hj1 : j < (copyAddrs (base + 1) rest).length := by
        simpa [copyAddrs, copyAddrs_length] using h1
      have hj2 : j < rest.length := by simpa using h2
      show (copyAddrs (base + 1) rest).get ⟨j, hj1⟩ =
        ((rest.get ⟨j, hj2⟩).1, base + (j + 1))
      rw [ih (base + 1) j hj1 hj2]
      simp only [Prod.mk.injEq]
      exact ⟨trivial, by omega⟩

theorem getD_map_get {α β : Type} (f : α → β) (d : β) :
    ∀ (l : List α) (i : Nat) (h : i < l.length),
      (l.map f).getD i d = f (l.get ⟨i, h⟩) := by
  intro l
  induction l with
  | nil => intro i h; simp at h
  | cons x xs ih =>
    intro i h
    cases i with
    | zero => rfl
    | succ j => simpa using ih j (by simpa using h)

/-- The summary returned by `FunctionTraceDetails` resolves to exactly
the live table's content: each copy is a complete copy of its record. -/
theorem resolvedDetails_correct (s : TraceTableH) :
    resolvedDetails (functionTraceDetailsH s) = detailsContent s := by
  apply List.ext_get
  · simp [resolvedDetails, detailsContent, functionTraceDetailsH,
      copyAddrs_length]
  · intro i h1 h2
    have hi : i < s.table.length := by
      simpa [detailsContent] using h2
    have hca : i < (copyAddrs s.fheap.length s.table).length := by
      rw [copyAddrs_length]
      exact hi
    simp only [resolvedDetails, detailsContent, functionTraceDetailsH,
      List.get_map]
    rw [copyAddrs_getElem s.table s.fheap.length i hca hi]
    simp only [Prod.mk.injEq]
    refine ⟨trivial, ?_⟩
    show derefF ⟨s.fheap ++ s.table.map (fun kv => derefF s kv.2), s.table⟩
        (s.fheap.length + i) = derefF s (s.table.get ⟨i, hi⟩).2
    simp only [derefF]
    rw [getD_append_right, getD_map_get _ _ _ _ hi]

/-- Summary half of C4: taking a summary, or overwriting any record a
returned summary points at, leaves the content every subsequent summary
exposes unchanged. -/
theorem details_write_independent (s : TraceTableH) (hwf : WFTraceTable s)
    (a : Nat) (ha : s.fheap.length ≤ a) (rec : FunctionMetrics) :
    detailsContent (functionTraceDetailsH s).1 = detailsContent s ∧
    detailsContent (writeRecordH (functionTraceDetailsH s).1 a rec) =
      detailsContent s := by
  have hderef1 : ∀ kv ∈ s.table,
      derefF (functionTraceDetailsH s).1 kv.2 = derefF s kv.2 := by
    intro kv hkv
    have hlt := hwf kv hkv
    simp only [functionTraceDetailsH, derefF]
    exact getD_append_left fdefault _ _ _ hlt
  have hderef2 : ∀ kv ∈ s.table,
      derefF (writeRecordH (functionTraceDetailsH s).1 a rec) kv.2 =
        derefF s kv.2 := by
    intro kv hkv
    have hlt := hwf kv hkv
    have hne : kv.2 ≠ a := by omega
    simp only [writeRecordH, derefF]
    rw [getD_set_ne _ _ _ _ _ hne]
    exact hderef1 kv hkv
  constructor
  · apply List.map_congr_left
    intro kv hkv
    rw [hderef1 kv hkv]
  · apply List.map_congr_left
    intro kv hkv
    rw [hderef2 kv hkv]

/-- C4 (amended): the collections returned by registry `GetAll` and by
`FunctionTraceDetails` are one-level struct copies.  Registry: taking a
snapshot, or overwriting a returned element's scalar `Value` field,
leaves the content every subsequent `GetAll` exposes unchanged.  Summary:
the returned map resolves to exactly the live table's content, and
overwriting any record a returned summary points at (which subsumes every
field mutation, the records holding only value-typed fields) leaves
subsequent summaries unchanged.  The one failure of full structural
independence is the registry label maps, which the copies share with
internal state — see the counterexample. -/
theorem snapshot_copy_independence :
    (∀ r : RegistryH, WFRegistry r → ∀ a ∈ (getAllH r).2, ∀ v : ℚ,
      snapshotContent (getAllH r).1 = snapshotContent r ∧
      snapshotContent (writeValueH (getAllH r).1 a v) = snapshotContent r) ∧
    (∀ s : TraceTableH,
      resolvedDetails (functionTraceDetailsH s) = detailsContent s) ∧
    (∀ s : TraceTableH, WFTraceTable s →
      detailsContent (functionTraceDetailsH s).1 = detailsContent s ∧
      ∀ kv ∈ (functionTraceDetailsH s).2, ∀ rec : FunctionMetrics,
        detailsContent (writeRecordH (functionTraceDetailsH s).1 kv.2 rec) =
          detailsContent s) := by
  refine ⟨?_, resolvedDetails_correct, ?_⟩
  · intro r hwf a ha v
    exact getAll_copy_independence r hwf a ha v
  · intro s hwf
    have hbase : ∀ kv ∈ (functionTraceDetailsH s).2, s.fheap.length ≤ kv.2 := by
      intro kv hkv
      exact copyAddrs_mem_le s.table s.fheap.length kv hkv
    constructor
    · exact (details_write_independent s hwf s.fheap.length (le_refl _)
        fdefault).1
    · intro kv hkv rec
      exact (details_write_independent s hwf kv.2 (hbase kv hkv) rec).2

theorem snapshot_copy_independence_witness :
    snapshotContent (writeValueH (getAllH regC4).1 1 99) =
        snapshotContent regC4 ∧
    detailsContent
        (writeRecordH
          (functionTraceDetailsH
            ⟨[⟨0, 0, 0, 7, "c1", "m1"⟩], [("f", 0)]⟩).1
          1 ⟨9, 9, 9, 9, "z", "z"⟩) =
      detailsContent ⟨[⟨0, 0, 0, 7, "c1", "m1"⟩], [("f", 0)]⟩ := by
  constructor
  · exact (snapshot_copy_independence.1 regC4
      (by unfold WFRegistry; decide) 1 (by decide) 99).2
  · exact (snapshot_copy_independence.2.2
      ⟨[⟨0, 0, 0, 7, "c1", "m1"⟩], [("f", 0)]⟩
      (by unfold WFTraceTable; decide)).2
      ("f", 1) (by decide) ⟨9, 9, 9, 9, "z", "z"⟩

/-- C4 counterexample: mutating the *label map* of an element returned by
`GetAll` (writing `"k" ↦ "2"` through the copy's shared map reference)
changes the content subsequent `GetAll` calls expose, because the struct
copy shares its `Labels` reference with the stored record — the returned
values are not structurally independent of internal state. -/
theorem getAll_label_alias_counterexample :
    snapshotContent regC4 = [("x", 10, [("k", "1")], MetricType.gauge)] ∧
    snapshotContent (writeLabelH (getAllH regC4).1
        ((getAllH regC4).2.headD 0) "k" "2") =
      [("x", 10, [("k", "2")], MetricType.gauge)] ∧
    snapshotContent (writeLabelH (getAllH regC4).1
        ((getAllH regC4).2.headD 0) "k" "2") ≠ snapshotContent regC4 := by
  refine ⟨by decide, by decide, by decide⟩

end Monigo
